import Mathlib

/-!
Verification of the agent-coordination core of the Multiagent repository
(`src/agents/coordinator.py`, class `AgentCoordinator`), as a shallow
embedding in Lean 4.

Modelling conventions:
* Python dictionaries (tasks and results) are association lists
  `List (String × Val)` read by first-key lookup; `Val` covers the value
  kinds the coordinator itself inspects (strings and numbers).
* Python floats are rationals (`Rat`).
* A raising coroutine is `Except Err α`; `asyncio.gather` with its
  default arguments awaits the calls and propagates an exception, which a
  sequential monadic map models.
* Python object identity (the default `==` on `BaseAgent` instances,
  used by `agent == self.default_agent`) is an `aid : Nat` field.
* Logging calls (`logger.*`, `agent.log_activity`) are effect-free in the
  model.
* Wall-clock time: `elapsed` stands for the value `time.time() - start_time`
  computed at the return point of `process_task`; every enrichment site in
  the source passes exactly that whole-call quantity.
-/

/-- A Python value as far as the coordinator inspects one: a string or a
number.  Other task/result fields are opaque to the coordinator and are
representable by either constructor without loss for the properties here. -/
inductive Val where
  | vstr : String → Val
  | vnum : Rat → Val
deriving DecidableEq

/-- Error values: the message of a raised Python exception. -/
abbrev Err := String

/-- A Python dict with string keys, as an insertion-ordered item list. -/
abbrev RMap := List (String × Val)

/-- `d.get(k)` / `d[k]`: first-occurrence lookup. -/
def rget (r : RMap) (k : String) : Option Val :=
  List.lookup k r

/-- `{**d, k: v}` for one key: override `k` with `v` (extensionally the
Python dict update). -/
def rset (r : RMap) (k : String) (v : Val) : RMap :=
  r.filter (fun p => p.1 ≠ k) ++ [(k, v)]

/-- Removing a key from a dict (used to speak about a task with a field
omitted). -/
def rerase (r : RMap) (k : String) : RMap :=
  r.filter (fun p => p.1 ≠ k)

/-- A registered agent as the coordinator uses one: identity, `name`,
`description`, `evaluate_suitability` and `process` (both may raise). -/
structure Agent where
  aid : Nat
  name : String
  description : String
  evaluate : RMap → Except Err Rat
  process : RMap → Except Err RMap

/-- `AgentCoordinator` state after construction: registered agents in
registration order, a (then always present) default agent, and the two
policy parameters. -/
structure Coordinator where
  agents : List Agent
  defaultAgent : Agent
  enableParallel : Bool
  confidenceThreshold : Rat

/-- `AgentCoordinator.__init__`: `default_agent or (agents[0] if agents
else None)` followed by `if not agents: raise ValueError(...)`.  A
coordinator value exists only when construction did not raise. -/
def mkCoordinator (agents : List Agent) (defaultAgent : Option Agent)
    (enableParallel : Bool) (confidenceThreshold : Rat) :
    Except Err Coordinator :=
  match agents with
  | [] => .error "At least one agent must be provided"
  | a :: _ =>
    .ok ⟨agents, defaultAgent.getD a, enableParallel, confidenceThreshold⟩

/-- `str.lower()`, character by character. -/
def lowerStr (s : String) : String :=
  ⟨s.data.map Char.toLower⟩

/-- `_get_agent_by_name`: first registered agent whose lower-cased name
equals the lower-cased query. -/
def getAgentByName (c : Coordinator) (name : String) : Option Agent :=
  c.agents.find? (fun a => lowerStr a.name == lowerStr name)

/-- `_execute_agent`: run the agent; on an exception re-raise when the
agent is the default one (object identity), otherwise run the default
agent once with no further guard. -/
def executeAgent (c : Coordinator) (a : Agent) (t : RMap) :
    Except Err RMap :=
  match a.process t with
  | .ok r => .ok r
  | .error e =>
    if a.aid == c.defaultAgent.aid then .error e
    else c.defaultAgent.process t

/-- Sequential monadic map over `Except`, modelling `asyncio.gather`:
results are collected in list order and an exception propagates. -/
def exceptMapM (f : α → Except Err β) : List α → Except Err (List β)
  | [] => .ok []
  | x :: xs =>
    match f x with
    | .error e => .error e
    | .ok y =>
      match exceptMapM f xs with
      | .error e => .error e
      | .ok ys => .ok (y :: ys)

/-- Insert a pair into a list sorted by score descending, before the first
entry of score less than or equal to it (the stable position). -/
def insertDesc (p : String × Rat) : List (String × Rat) → List (String × Rat)
  | [] => [p]
  | q :: qs => if q.2 ≤ p.2 then p :: q :: qs else q :: insertDesc p qs

/-- A stable descending sort on the score component.  Python
`list.sort(key=lambda x: x[1], reverse=True)` is specified as exactly a
stable sort by the key in reverse order, which this insertion sort is. -/
def sortDesc : List (String × Rat) → List (String × Rat)
  | [] => []
  | p :: ps => insertDesc p (sortDesc ps)

/-- `_evaluate_agents`: gather every `evaluate_suitability`, keep
`(name, score)` for positive scores in registration order, sort stably by
descending score. -/
def evaluateAgents (c : Coordinator) (t : RMap) :
    Except Err (List (String × Rat)) :=
  match exceptMapM (fun a => a.evaluate t) c.agents with
  | .error e => .error e
  | .ok results =>
    .ok (sortDesc ((c.agents.zip results).filterMap
      (fun p => if 0 < p.2 then some (p.1.name, p.2) else none)))

/-- `result.get("confidence", 0)` followed by a numeric comparison: absent
reads as 0, a number reads as itself, and comparing a string against a
number raises `TypeError`. -/
def readConf (r : RMap) : Except Err Rat :=
  match rget r "confidence" with
  | none => .ok 0
  | some (.vnum q) => .ok q
  | some (.vstr _) => .error "TypeError"

/-- `_prepare_result`: spread the result and set the three coordinator
fields. -/
def prepareResult (r : RMap) (a : Agent) (elapsed : Rat) : RMap :=
  rset (rset (rset r "agent_name" (.vstr a.name))
      "agent_description" (.vstr a.description))
    "execution_time" (.vnum elapsed)

/-- The selection loop of `_combine_results`: track best confidence
(initially the sentinel -1), best result and best agent. -/
def combineLoop : List (RMap × Agent) → Rat → Option (RMap × Agent) →
    Except Err (Option (RMap × Agent))
  | [], _, best => .ok best
  | (r, a) :: rest, bestConf, best =>
    match readConf r with
    | .error e => .error e
    | .ok conf =>
      if bestConf < conf then combineLoop rest conf (some (r, a))
      else combineLoop rest bestConf best

/-- `_combine_results`: pick the best-confidence result; `if best_result:`
is Python truthiness, so a `None` or empty-dict best falls back to
`results[0]` with `agents[0]` (an empty `results` would raise
`IndexError` there). -/
def combineResults (results : List RMap) (agents : List Agent)
    (elapsed : Rat) : Except Err RMap :=
  match combineLoop (results.zip agents) (-1) none with
  | .error e => .error e
  | .ok (some (r, a)) =>
    if r.isEmpty then
      match results, agents with
      | r0 :: _, a0 :: _ => .ok (prepareResult r0 a0 elapsed)
      | _, _ => .error "IndexError"
    else .ok (prepareResult r a elapsed)
  | .ok none =>
    match results, agents with
    | r0 :: _, a0 :: _ => .ok (prepareResult r0 a0 elapsed)
    | _, _ => .error "IndexError"

/-- The shared single-agent tail of `process_task` (lines 106-109):
`best_agent` is an `Optional`; a `None` would raise `AttributeError` at
the first attribute access. -/
def singleBest (c : Coordinator) (bestOpt : Option Agent) (t : RMap)
    (elapsed : Rat) : Except Err RMap :=
  match bestOpt with
  | some best =>
    match executeAgent c best t with
    | .error e => .error e
    | .ok r => .ok (prepareResult r best elapsed)
  | none => .error "AttributeError"

/-- `process_task` from the suitability-evaluation step on (lines 71-109),
reached when no preferred-agent override fired. -/
def processAuto (c : Coordinator) (t : RMap) (elapsed : Rat) :
    Except Err RMap :=
  match evaluateAgents c t with
  | .error e => .error e
  | .ok [] =>
    -- default_agent is always set after construction, so the
    -- `if not self.default_agent: raise` guard cannot fire
    match executeAgent c c.defaultAgent t with
    | .error e => .error e
    | .ok r => .ok (prepareResult r c.defaultAgent elapsed)
  | .ok (scores@((bestName, _) :: _)) =>
    if c.enableParallel && decide (1 < scores.length) then
      if 1 < ((scores.filter (fun p => c.confidenceThreshold ≤ p.2)).filterMap
          (fun p => getAgentByName c p.1)).length then
        match exceptMapM (fun a => executeAgent c a t)
            ((scores.filter (fun p => c.confidenceThreshold ≤ p.2)).filterMap
              (fun p => getAgentByName c p.1)) with
        | .error e => .error e
        | .ok results => combineResults results
            ((scores.filter (fun p => c.confidenceThreshold ≤ p.2)).filterMap
              (fun p => getAgentByName c p.1)) elapsed
      else singleBest c (getAgentByName c bestName) t elapsed
    else singleBest c (getAgentByName c bestName) t elapsed

/-- `process_task`: the preferred-agent override runs first.
`task.get("preferred_agent")` is truthiness-tested, so an absent key, an
empty string or a zero number all fall through to automatic selection; a
truthy non-string value would raise inside `_get_agent_by_name` at
`name.lower()`. -/
def processTask (c : Coordinator) (t : RMap) (elapsed : Rat) :
    Except Err RMap :=
  match rget t "preferred_agent" with
  | some (.vstr s) =>
    if s = "" then processAuto c t elapsed
    else
      match getAgentByName c s with
      | some a =>
        match executeAgent c a t with
        | .error e => .error e
        | .ok r => .ok (prepareResult r a elapsed)
      | none => processAuto c t elapsed
  | some (.vnum q) =>
    if q = 0 then processAuto c t elapsed else .error "AttributeError"
  | none => processAuto c t elapsed

/-- The task reaches automatic selection: the preferred-agent field is
absent, falsy, or names no registered agent. -/
def noPreferredMatch (c : Coordinator) (t : RMap) : Prop :=
  match rget t "preferred_agent" with
  | none => True
  | some (.vstr s) => s = "" ∨ getAgentByName c s = none
  | some (.vnum q) => q = 0

/-! ### Lookup lemmas for the dict model -/

theorem rget_cons (k : String) (p : String × Val) (ps : RMap) :
    rget (p :: ps) k = if k = p.1 then some p.2 else rget ps k := by
  rcases p with ⟨k', v⟩
  by_cases h : k = k'
  · simp [rget, List.lookup, h]
  · have hb : (k == k') = false := by simpa using h
    simp [rget, List.lookup, hb, h]

theorem rget_filter_ne_self (r : RMap) (k : String) :
    rget (r.filter (fun p => p.1 ≠ k)) k = none := by
  induction r with
  | nil => rfl
  | cons p ps ih =>
    by_cases h : p.1 = k
    · simpa [List.filter_cons, h] using ih
    · have h' : k ≠ p.1 := fun hk => h hk.symm
      simpa [List.filter_cons, h, rget_cons, h'] using ih

theorem rget_filter_ne_other (r : RMap) (k k' : String) (h : k' ≠ k) :
    rget (r.filter (fun p => p.1 ≠ k)) k' = rget r k' := by
  induction r with
  | nil => rfl
  | cons p ps ih =>
    by_cases hp : p.1 = k
    · have h' : k' ≠ p.1 := fun hk => h (hk.trans hp)
      simpa [List.filter_cons, hp, rget_cons, h', h] using ih
    · by_cases hk : k' = p.1
      · simp [List.filter_cons, hp, rget_cons, hk]
      · simpa [List.filter_cons, hp, rget_cons, hk] using ih

theorem rget_append (r₁ r₂ : RMap) (k : String) :
    rget (r₁ ++ r₂) k =
      match rget r₁ k with
      | some v => some v
      | none => rget r₂ k := by
  induction r₁ with
  | nil => rfl
  | cons p ps ih =>
    by_cases h : k = p.1 <;> simp [rget_cons, h, ih]

theorem rget_rset_self (r : RMap) (k : String) (v : Val) :
    rget (rset r k v) k = some v := by
  simp only [rset, rget_append]
  rw [rget_filter_ne_self]
  simp [rget_cons]

theorem rget_rset_ne (r : RMap) (k k' : String) (v : Val) (h : k' ≠ k) :
    rget (rset r k v) k' = rget r k' := by
  simp only [rset, rget_append]
  rw [rget_filter_ne_other r k k' h]
  have hb : (k' == k) = false := by simpa using h
  cases hr : rget r k' <;> simp [rget_cons, h, rget, List.lookup, hb]

theorem rget_rerase_self (r : RMap) (k : String) :
    rget (rerase r k) k = none :=
  rget_filter_ne_self r k

theorem rget_rerase_ne (r : RMap) (k k' : String) (h : k' ≠ k) :
    rget (rerase r k) k' = rget r k' :=
  rget_filter_ne_other r k k' h

/-! ### Enrichment lemmas: the three coordinator-owned keys -/

theorem prepareResult_get_time (r : RMap) (a : Agent) (e : Rat) :
    rget (prepareResult r a e) "execution_time" = some (.vnum e) :=
  rget_rset_self _ _ _

theorem prepareResult_get_desc (r : RMap) (a : Agent) (e : Rat) :
    rget (prepareResult r a e) "agent_description" = some (.vstr a.description) := by
  rw [prepareResult, rget_rset_ne _ _ _ _ (by decide)]
  exact rget_rset_self _ _ _

theorem prepareResult_get_name (r : RMap) (a : Agent) (e : Rat) :
    rget (prepareResult r a e) "agent_name" = some (.vstr a.name) := by
  rw [prepareResult, rget_rset_ne _ _ _ _ (by decide),
    rget_rset_ne _ _ _ _ (by decide)]
  exact rget_rset_self _ _ _

theorem prepareResult_get_other (r : RMap) (a : Agent) (e : Rat) (k : String)
    (h₁ : k ≠ "agent_name") (h₂ : k ≠ "agent_description")
    (h₃ : k ≠ "execution_time") :
    rget (prepareResult r a e) k = rget r k := by
  rw [prepareResult, rget_rset_ne _ _ _ _ h₃, rget_rset_ne _ _ _ _ h₂,
    rget_rset_ne _ _ _ _ h₁]

/-! ### Gather lemmas -/

theorem exceptMapM_ok_forall₂ {α β : Type} {f : α → Except Err β} {l : List α}
    {ys : List β} :
    exceptMapM f l = .ok ys ↔ List.Forall₂ (fun x y => f x = .ok y) l ys := by
  induction l generalizing ys with
  | nil =>
    constructor
    · intro h
      cases ys with
      | nil => exact List.Forall₂.nil
      | cons y ys => simp [exceptMapM] at h
    · intro h
      cases h
      rfl
  | cons x xs ih =>
    cases hfx : f x with
    | error e =>
      constructor
      · intro h
        simp [exceptMapM, hfx] at h
      · intro h
        cases h with
        | cons hxy _ => rw [hfx] at hxy; cases hxy
    | ok y =>
      cases hxs : exceptMapM f xs with
      | error e =>
        constructor
        · intro h
          simp [exceptMapM, hfx, hxs] at h
        · intro h
          cases h with
          | cons hxy htail =>
            rw [← ih] at htail
            rw [htail] at hxs
            cases hxs
      | ok ys' =>
        constructor
        · intro h
          simp only [exceptMapM, hfx, hxs] at h
          cases h
          exact List.Forall₂.cons hfx (ih.mp hxs)
        · intro h
          cases h with
          | cons hxy htail =>
            rw [hfx] at hxy
            cases hxy
            rw [← ih] at htail
            rw [htail] at hxs
            cases hxs
            simp [exceptMapM, hfx, htail]

theorem exceptMapM_error_of_mem {α β : Type} {f : α → Except Err β}
    {l : List α} {x : α} (hx : x ∈ l) (hfx : ∀ y, f x ≠ .ok y) :
    ∃ m, exceptMapM f l = .error m := by
  induction l with
  | nil => cases hx
  | cons z zs ih =>
    cases hfz : f z with
    | error e => exact ⟨e, by simp [exceptMapM, hfz]⟩
    | ok y =>
      rcases List.mem_cons.mp hx with hxz | hxtail
      · subst hxz
        exact absurd hfz (hfx y)
      · rcases ih hxtail with ⟨m, hm⟩
        exact ⟨m, by simp [exceptMapM, hfz, hm]⟩

theorem exceptMapM_congr {α β : Type} {f g : α → Except Err β} {l : List α}
    (h : ∀ x ∈ l, f x = g x) :
    exceptMapM f l = exceptMapM g l := by
  induction l with
  | nil => rfl
  | cons x xs ih =>
    have hx := h x (List.mem_cons_self x xs)
    have htl := ih (fun z hz => h z (List.mem_cons_of_mem x hz))
    simp [exceptMapM, hx, htl]

/-! ### Stable descending sort lemmas -/

theorem insertDesc_perm (p : String × Rat) (l : List (String × Rat)) :
    List.Perm (insertDesc p l) (p :: l) := by
  induction l with
  | nil => exact List.Perm.refl _
  | cons q qs ih =>
    by_cases h : q.2 ≤ p.2
    · rw [insertDesc, if_pos h]
    · rw [insertDesc, if_neg h]
      exact (ih.cons q).trans (List.Perm.swap _ _ _)

theorem sortDesc_perm (l : List (String × Rat)) :
    List.Perm (sortDesc l) l := by
  induction l with
  | nil => exact List.Perm.refl _
  | cons p ps ih => exact (insertDesc_perm p (sortDesc ps)).trans (ih.cons p)

theorem insertDesc_pairwise (p : String × Rat) (l : List (String × Rat))
    (hl : l.Pairwise (fun x y => y.2 ≤ x.2)) :
    (insertDesc p l).Pairwise (fun x y => y.2 ≤ x.2) := by
  induction l with
  | nil => simp [insertDesc]
  | cons q qs ih =>
    rcases List.pairwise_cons.mp hl with ⟨hq, hqs⟩
    by_cases h : q.2 ≤ p.2
    · simp only [insertDesc, h, if_true]
      refine List.pairwise_cons.mpr ⟨?_, hl⟩
      intro z hz
      rcases List.mem_cons.mp hz with hzq | hzqs
      · exact hzq ▸ h
      · exact le_trans (hq z hzqs) h
    · simp only [insertDesc, h, if_false]
      refine List.pairwise_cons.mpr ⟨?_, ih hqs⟩
      intro z hz
      have hz' := (insertDesc_perm p qs).mem_iff.mp hz
      rcases List.mem_cons.mp hz' with hzp | hzqs
      · exact hzp ▸ le_of_lt (lt_of_not_le h)
      · exact hq z hzqs

theorem insertDesc_filter_eq (p : String × Rat) (l : List (String × Rat))
    (s : Rat) (hps : p.2 = s) :
    (insertDesc p l).filter (fun q => q.2 = s) =
      p :: l.filter (fun q => q.2 = s) := by
  subst hps
  induction l with
  | nil => simp [insertDesc, List.filter_cons]
  | cons q qs ih =>
    by_cases h : q.2 ≤ p.2
    · rw [insertDesc, if_pos h]
      simp [List.filter_cons]
    · rw [insertDesc, if_neg h]
      have hq : ¬ q.2 = p.2 := fun he => h (le_of_eq he)
      simp [List.filter_cons, hq, ih]

theorem insertDesc_filter_ne (p : String × Rat) (l : List (String × Rat))
    (s : Rat) (hps : ¬ p.2 = s) :
    (insertDesc p l).filter (fun q => q.2 = s) =
      l.filter (fun q => q.2 = s) := by
  induction l with
  | nil => simp [insertDesc, List.filter_cons, hps]
  | cons q qs ih =>
    by_cases h : q.2 ≤ p.2
    · rw [insertDesc, if_pos h]
      simp [List.filter_cons, hps]
    · rw [insertDesc, if_neg h]
      by_cases hq : q.2 = s
      · rw [List.filter_cons, List.filter_cons]
        simp [hq, ih]
      · rw [List.filter_cons, List.filter_cons]
        simp [hq, ih]

theorem sortDesc_filter (l : List (String × Rat)) (s : Rat) :
    (sortDesc l).filter (fun q => q.2 = s) = l.filter (fun q => q.2 = s) := by
  induction l with
  | nil => rfl
  | cons p ps ih =>
    by_cases h : p.2 = s
    · rw [sortDesc, insertDesc_filter_eq p (sortDesc ps) s h, ih,
        List.filter_cons]
      simp [h]
    · rw [sortDesc, insertDesc_filter_ne p (sortDesc ps) s h, ih,
        List.filter_cons]
      simp [h]

/-! ### Combination lemmas -/

/-- The confidence a result is read with: a number reads as itself, an
absent field as 0. -/
def confOf (r : RMap) : Rat :=
  match rget r "confidence" with
  | some (.vnum q) => q
  | _ => 0

/-- The confidence field, when present, is a value a numeric comparison
accepts. -/
def confReadable (r : RMap) : Prop :=
  match rget r "confidence" with
  | some (.vstr _) => False
  | _ => True

theorem readConf_eq {r : RMap} (h : confReadable r) :
    readConf r = .ok (confOf r) := by
  unfold confReadable at h
  unfold readConf confOf
  cases hr : rget r "confidence" with
  | none => rfl
  | some v =>
    cases v with
    | vnum q => rfl
    | vstr s => rw [hr] at h; cases h

/-- The selection loop without the exception channel. -/
def loopPure : List (RMap × Agent) → Rat → Option (RMap × Agent) →
    Option (RMap × Agent)
  | [], _, best => best
  | (r, a) :: rest, bestConf, best =>
    if bestConf < confOf r then loopPure rest (confOf r) (some (r, a))
    else loopPure rest bestConf best

theorem combineLoop_eq_loopPure (ps : List (RMap × Agent)) (b : Rat)
    (best : Option (RMap × Agent)) (h : ∀ p ∈ ps, confReadable p.1) :
    combineLoop ps b best = .ok (loopPure ps b best) := by
  induction ps generalizing b best with
  | nil => rfl
  | cons p rest ih =>
    rcases p with ⟨r, a⟩
    have hr : confReadable r := h (r, a) (List.mem_cons_self _ _)
    have htl : ∀ q ∈ rest, confReadable q.1 :=
      fun q hq => h q (List.mem_cons_of_mem _ hq)
    simp only [combineLoop, readConf_eq hr, loopPure]
    by_cases hc : b < confOf r
    · rw [if_pos hc, if_pos hc]
      exact ih _ _ htl
    · rw [if_neg hc, if_neg hc]
      exact ih _ _ htl

theorem loopPure_of_all_le (ps : List (RMap × Agent)) (b : Rat)
    (best : Option (RMap × Agent)) (h : ∀ p ∈ ps, confOf p.1 ≤ b) :
    loopPure ps b best = best := by
  induction ps with
  | nil => rfl
  | cons p rest ih =>
    rcases p with ⟨r, a⟩
    have hr := h (r, a) (List.mem_cons_self _ _)
    rw [loopPure, if_neg (not_lt.mpr hr)]
    exact ih (fun q hq => h q (List.mem_cons_of_mem _ hq))

theorem loopPure_found (ps : List (RMap × Agent)) (b : Rat)
    (best : Option (RMap × Agent)) (h : ∃ p ∈ ps, b < confOf p.1) :
    ∃ i, ∃ hi : i < ps.length,
      loopPure ps b best = some (ps.get ⟨i, hi⟩) ∧
      b < confOf (ps.get ⟨i, hi⟩).1 ∧
      (∀ j, ∀ hj : j < ps.length,
        confOf (ps.get ⟨j, hj⟩).1 ≤ confOf (ps.get ⟨i, hi⟩).1) ∧
      (∀ j, ∀ hj : j < i,
        confOf (ps.get ⟨j, Nat.lt_trans hj hi⟩).1 <
          confOf (ps.get ⟨i, hi⟩).1) := by
  induction ps generalizing b best with
  | nil => rcases h with ⟨p, hp, _⟩; cases hp
  | cons p rest ih =>
    rcases p with ⟨r, a⟩
    by_cases hc : b < confOf r
    · by_cases hex : ∃ q ∈ rest, confOf r < confOf q.1
      · rcases ih (confOf r) (some (r, a)) hex with
          ⟨i', hi', heq, hgt, hmax, hstrict⟩
        refine ⟨i' + 1, Nat.succ_lt_succ hi', ?_, ?_, ?_, ?_⟩
        · rw [loopPure, if_pos hc]; exact heq
        · exact lt_trans hc hgt
        · intro j hj
          cases j with
          | zero => exact le_of_lt hgt
          | succ j' => exact hmax j' (Nat.lt_of_succ_lt_succ hj)
        · intro j hj
          cases j with
          | zero => exact hgt
          | succ j' => exact hstrict j' (Nat.lt_of_succ_lt_succ hj)
      · push_neg at hex
        refine ⟨0, Nat.succ_pos _, ?_, hc, ?_, ?_⟩
        · rw [loopPure, if_pos hc]
          exact loopPure_of_all_le rest (confOf r) (some (r, a)) hex
        · intro j hj
          cases j with
          | zero => exact le_refl _
          | succ j' =>
            exact hex _ (List.get_mem rest _ _)
        · intro j hj
          cases hj
    · have hrest : ∃ q ∈ rest, b < confOf q.1 := by
        rcases h with ⟨q, hq, hbq⟩
        rcases List.mem_cons.mp hq with hq0 | hqr
        · subst hq0
          exact absurd hbq hc
        · exact ⟨q, hqr, hbq⟩
      rcases ih b best hrest with ⟨i', hi', heq, hgt, hmax, hstrict⟩
      have hrb : confOf r ≤ b := not_lt.mp hc
      refine ⟨i' + 1, Nat.succ_lt_succ hi', ?_, hgt, ?_, ?_⟩
      · rw [loopPure, if_neg hc]; exact heq
      · intro j hj
        cases j with
        | zero => exact le_of_lt (lt_of_le_of_lt hrb hgt)
        | succ j' => exact hmax j' (Nat.lt_of_succ_lt_succ hj)
      · intro j hj
        cases j with
        | zero => exact lt_of_le_of_lt hrb hgt
        | succ j' => exact hstrict j' (Nat.lt_of_succ_lt_succ hj)

theorem combineLoop_ok_shape (ps : List (RMap × Agent)) (b : Rat)
    (best : Option (RMap × Agent)) (x : RMap × Agent)
    (h : combineLoop ps b best = .ok (some x)) :
    x ∈ ps ∨ best = some x := by
  induction ps generalizing b best with
  | nil =>
    right
    cases h
    rfl
  | cons p rest ih =>
    rcases p with ⟨r, a⟩
    rw [combineLoop] at h
    cases hrc : readConf r with
    | error e => rw [hrc] at h; cases h
    | ok conf =>
      simp only [hrc] at h
      by_cases hc : b < conf
      · rw [if_pos hc] at h
        rcases ih _ _ h with hmem | hbest
        · exact Or.inl (List.mem_cons_of_mem _ hmem)
        · cases hbest
          exact Or.inl (List.mem_cons_self _ _)
      · rw [if_neg hc] at h
        rcases ih _ _ h with hmem | hbest
        · exact Or.inl (List.mem_cons_of_mem _ hmem)
        · exact Or.inr hbest

/-! ### Name lookup and control-path lemmas -/

theorem getAgentByName_mem {c : Coordinator} {n : String} {a : Agent}
    (h : getAgentByName c n = some a) : a ∈ c.agents :=
  List.mem_of_find?_eq_some h

theorem getAgentByName_self {c : Coordinator} {a : Agent}
    (ha : a ∈ c.agents) : ∃ b, getAgentByName c a.name = some b := by
  cases hf : getAgentByName c a.name with
  | some b => exact ⟨b, rfl⟩
  | none =>
    have hn := List.find?_eq_none.mp hf a ha
    simp at hn

theorem processTask_eq_auto (c : Coordinator) (t : RMap) (e : Rat)
    (h : noPreferredMatch c t) :
    processTask c t e = processAuto c t e := by
  unfold noPreferredMatch at h
  cases hp : rget t "preferred_agent" with
  | none => simp only [processTask, hp]
  | some v =>
    rw [hp] at h
    cases v with
    | vstr s =>
      rcases h with hs | hn
      · simp [processTask, hp, hs]
      · by_cases hs : s = ""
        · simp [processTask, hp, hs]
        · simp [processTask, hp, hs, hn]
    | vnum q =>
      simp [processTask, hp, h]

theorem combineResults_ok_shape {results : List RMap} {agents : List Agent}
    {e : Rat} {res : RMap}
    (h : combineResults results agents e = .ok res) :
    ∃ p, p ∈ results.zip agents ∧ res = prepareResult p.1 p.2 e := by
  unfold combineResults at h
  split at h
  · cases h
  case _ r a hl =>
    split at h
    · split at h
      · cases h
        rename_i r0 rs a0 as
        exact ⟨(r0, a0), List.mem_cons_self _ _, rfl⟩
      · cases h
    · cases h
      rcases combineLoop_ok_shape _ _ _ _ hl with hmem | hbest
      · exact ⟨(r, a), hmem, rfl⟩
      · cases hbest
  case _ hl =>
    split at h
    · cases h
      rename_i r0 rs a0 as
      exact ⟨(r0, a0), List.mem_cons_self _ _, rfl⟩
    · cases h

/-! ### Concrete fixtures used by witnesses and counterexamples -/

def rQ01 : Rat := ⟨1, 10, by decide, by decide⟩
def rQ03 : Rat := ⟨3, 10, by decide, by decide⟩
def rQ05 : Rat := ⟨1, 2, by decide, by decide⟩
def rQ06 : Rat := ⟨3, 5, by decide, by decide⟩
def rQ07 : Rat := ⟨7, 10, by decide, by decide⟩
def rQ08 : Rat := ⟨4, 5, by decide, by decide⟩
def rQ09 : Rat := ⟨9, 10, by decide, by decide⟩

def agD : Agent :=
  ⟨0, "D", "the default", fun _ => .ok rQ01,
    fun _ => .ok [("content", .vstr "from-default")]⟩

def agX : Agent :=
  ⟨1, "X", "the expert", fun _ => .ok rQ09, fun _ => .error "boom"⟩

def agB : Agent :=
  ⟨2, "B", "agent b", fun _ => .ok rQ07,
    fun _ => .ok [("answer", .vstr "b")]⟩

def agDB : Agent :=
  ⟨4, "D", "failing default", fun _ => .ok rQ01, fun _ => .error "dboom"⟩

def agZ : Agent :=
  ⟨5, "Z", "declines all", fun _ => .ok 0,
    fun _ => .ok [("answer", .vstr "z")]⟩

def agA2 : Agent :=
  ⟨6, "A", "agent a", fun _ => .ok rQ09,
    fun _ => .ok [("answer", .vstr "a")]⟩

def agB2 : Agent :=
  ⟨7, "B", "agent b2", fun _ => .ok rQ09,
    fun _ => .ok [("answer", .vstr "b2")]⟩

def agC2 : Agent :=
  ⟨8, "C", "agent c", fun _ => .ok rQ05,
    fun _ => .ok [("answer", .vstr "c")]⟩

def agBad : Agent :=
  ⟨9, "Bad", "raising evaluator", fun _ => .error "boom",
    fun _ => .ok [("answer", .vstr "bad")]⟩

def agGood : Agent :=
  ⟨10, "G", "fine evaluator", fun _ => .ok rQ09,
    fun _ => .ok [("answer", .vstr "g")]⟩

def tQ : RMap := [("query", Val.vstr "q")]

def tPref : RMap :=
  [("preferred_agent", Val.vstr "b"), ("query", Val.vstr "q")]

def cC1 : Coordinator := ⟨[agD, agX], agD, false, rQ05⟩
def cC1b : Coordinator := ⟨[agDB, agX], agDB, false, rQ05⟩
def cPref : Coordinator := ⟨[agD, agB], agD, false, rQ05⟩
def cC7 : Coordinator := ⟨[agZ], agZ, false, rQ05⟩
def cRank : Coordinator := ⟨[agA2, agB2, agC2, agZ], agA2, false, rQ05⟩
def cC6 : Coordinator := ⟨[agBad, agGood], agGood, false, rQ05⟩

/-! ### Claim theorems -/

/-- C9: constructing a coordinator with an empty handler list raises the
configuration error, so no coordinator value exists and no task can be
processed; with a non-empty handler list and no default supplied, the
first registered handler becomes the default handler. -/
theorem C9_construction (d : Option Agent) (p : Bool) (θ : Rat) :
    mkCoordinator [] d p θ = .error "At least one agent must be provided" ∧
    ∀ (a : Agent) (rest : List Agent) (c : Coordinator),
      mkCoordinator (a :: rest) none p θ = .ok c → c.defaultAgent = a := by
  constructor
  · rfl
  · intro a rest c h
    cases h
    rfl

theorem C9_construction_witness :
    mkCoordinator [] none false rQ05 =
      .error "At least one agent must be provided" ∧
    (⟨[agD, agX], agD, false, rQ05⟩ : Coordinator).defaultAgent = agD :=
  ⟨(C9_construction none false rQ05).1,
    (C9_construction none false rQ05).2 agD [agX] _ rfl⟩

/-- C5: when the task names a registered handler (case-insensitively) as
preferred and that handler's `process` succeeds, `process_task` returns
exactly that handler's result enriched by the coordinator, independently
of every suitability evaluator and of every other handler, and the
returned `agent_name` is that handler's name. -/
theorem C5_preferred (c : Coordinator) (t : RMap) (e : Rat) (s : String)
    (a : Agent) (r : RMap)
    (hp : rget t "preferred_agent" = some (.vstr s)) (hs : s ≠ "")
    (ha : getAgentByName c s = some a) (hr : a.process t = .ok r) :
    processTask c t e = .ok (prepareResult r a e) ∧
    rget (prepareResult r a e) "agent_name" = some (.vstr a.name) := by
  constructor
  · simp [processTask, hp, hs, ha, executeAgent, hr]
  · exact prepareResult_get_name r a e

theorem C5_preferred_witness :
    rget tPref "preferred_agent" = some (.vstr "b") ∧
    getAgentByName cPref "b" = some agB ∧
    agB.process tPref = .ok [("answer", Val.vstr "b")] ∧
    processTask cPref tPref 3 =
      .ok (prepareResult [("answer", Val.vstr "b")] agB 3) :=
  ⟨rfl, rfl, rfl,
    (C5_preferred cPref tPref 3 "b" agB [("answer", Val.vstr "b")]
      rfl (by decide) rfl rfl).1⟩

/-- C7: when no preferred handler matches and every suitability score is
non-positive, the ranked list is empty and `process_task` executes the
default handler, returning its result with `agent_name` equal to the
default handler's name. -/
theorem C7_all_nonpositive (c : Coordinator) (t : RMap) (e : Rat)
    (sc : List Rat) (r : RMap)
    (hnp : noPreferredMatch c t)
    (hev : exceptMapM (fun a => a.evaluate t) c.agents = .ok sc)
    (hle : ∀ x ∈ sc, x ≤ 0)
    (hd : c.defaultAgent.process t = .ok r) :
    processTask c t e = .ok (prepareResult r c.defaultAgent e) ∧
    rget (prepareResult r c.defaultAgent e) "agent_name" =
      some (.vstr c.defaultAgent.name) := by
  have hfm : (c.agents.zip sc).filterMap
      (fun p => if 0 < p.2 then some (p.1.name, p.2) else none) = [] := by
    rw [List.filterMap_eq_nil_iff]
    intro p hp
    rw [if_neg (not_lt.mpr (hle p.2 (List.of_mem_zip hp).2))]
  have hea : evaluateAgents c t = .ok [] := by
    simp only [evaluateAgents, hev, hfm]
    rfl
  constructor
  · rw [processTask_eq_auto c t e hnp]
    simp [processAuto, hea, executeAgent, hd]
  · exact prepareResult_get_name r c.defaultAgent e

theorem C7_all_nonpositive_witness :
    (∀ x ∈ [(0 : Rat)], x ≤ 0) ∧
    processTask cC7 tQ 2 =
      .ok (prepareResult [("answer", Val.vstr "z")] agZ 2) :=
  ⟨by intro x hx; simp at hx; simp [hx],
    (C7_all_nonpositive cC7 tQ 2 [0] [("answer", Val.vstr "z")]
      trivial rfl (by intro x hx; simp at hx; simp [hx]) rfl).1⟩

theorem sortDesc_pairwise (l : List (String × Rat)) :
    (sortDesc l).Pairwise (fun x y => y.2 ≤ x.2) := by
  induction l with
  | nil => exact List.Pairwise.nil
  | cons p ps ih => exact insertDesc_pairwise p (sortDesc ps) ih

/-- C2: with every evaluator succeeding, the ranked list is exactly the
positive-score `(name, score)` pairs of the registered handlers — the
same multiset (permutation), every member strictly positive, sorted by
score descending, and for each score value the tied entries keep their
registration order (stability). -/
theorem C2_ranking (c : Coordinator) (t : RMap) (sc : List Rat)
    (hev : exceptMapM (fun a => a.evaluate t) c.agents = .ok sc) :
    ∃ L, evaluateAgents c t = .ok L ∧
      List.Perm L ((c.agents.zip sc).filterMap
        (fun p => if 0 < p.2 then some (p.1.name, p.2) else none)) ∧
      (∀ p ∈ L, 0 < p.2) ∧
      L.Pairwise (fun x y => y.2 ≤ x.2) ∧
      (∀ s, L.filter (fun q => q.2 = s) =
        ((c.agents.zip sc).filterMap
          (fun p => if 0 < p.2 then some (p.1.name, p.2) else none)).filter
          (fun q => q.2 = s)) := by
  refine ⟨sortDesc ((c.agents.zip sc).filterMap
      (fun p => if 0 < p.2 then some (p.1.name, p.2) else none)),
    ?_, sortDesc_perm _, ?_, sortDesc_pairwise _, fun s => sortDesc_filter _ s⟩
  · simp only [evaluateAgents, hev]
  · intro p hp
    have hp' := (sortDesc_perm _).mem_iff.mp hp
    rcases List.mem_filterMap.mp hp' with ⟨q, _, hq⟩
    by_cases h0 : 0 < q.2
    · rw [if_pos h0] at hq
      cases hq
      exact h0
    · rw [if_neg h0] at hq
      cases hq

theorem C2_ranking_witness :
    ∃ L, evaluateAgents cRank tQ = .ok L ∧
      List.Perm L ((cRank.agents.zip [rQ09, rQ09, rQ05, 0]).filterMap
        (fun p => if 0 < p.2 then some (p.1.name, p.2) else none)) ∧
      (∀ p ∈ L, 0 < p.2) ∧
      L.Pairwise (fun x y => y.2 ≤ x.2) ∧
      (∀ s, L.filter (fun q => q.2 = s) =
        ((cRank.agents.zip [rQ09, rQ09, rQ05, 0]).filterMap
          (fun p => if 0 < p.2 then some (p.1.name, p.2) else none)).filter
          (fun q => q.2 = s)) :=
  C2_ranking cRank tQ [rQ09, rQ09, rQ05, 0] rfl

/-- C6 (amended): the coordinator does not guard suitability evaluation —
if any registered handler's `evaluate_suitability` raises, the gathered
evaluation pass raises as a whole, no ranked list is produced, and
`process_task` (in the automatic path) propagates the failure instead of
scoring the other handlers. -/
theorem C6_eval_failure_aborts (c : Coordinator) (t : RMap) (e : Rat)
    (hnp : noPreferredMatch c t)
    (h : ∃ a ∈ c.agents, ∃ m, a.evaluate t = .error m) :
    (∃ m, evaluateAgents c t = .error m) ∧
    (∃ m, processTask c t e = .error m) := by
  rcases h with ⟨a, ha, m, hm⟩
  have hfx : ∀ y, a.evaluate t ≠ .ok y := by
    intro y hy
    rw [hm] at hy
    cases hy
  rcases @exceptMapM_error_of_mem Agent Rat (fun a => a.evaluate t)
      c.agents a ha hfx with ⟨m', hm'⟩
  have hea : evaluateAgents c t = .error m' := by
    simp only [evaluateAgents, hm']
  refine ⟨⟨m', hea⟩, ⟨m', ?_⟩⟩
  rw [processTask_eq_auto c t e hnp]
  simp only [processAuto, hea]

theorem C6_eval_failure_aborts_witness :
    (∃ m, evaluateAgents cC6 tQ = .error m) ∧
    (∃ m, processTask cC6 tQ 2 = .error m) :=
  C6_eval_failure_aborts cC6 tQ 2 trivial
    ⟨agBad, List.mem_cons_self _ _, "boom", rfl⟩

/-- C6 (counterexample to the claim as stated): with a first handler
whose evaluator raises and a second handler scoring 0.9, the evaluation
pass returns the propagated exception — not a ranked list containing only
the second handler as the claim requires. -/
theorem C6_counterexample :
    evaluateAgents cC6 tQ = .error "boom" ∧
    ∀ L, evaluateAgents cC6 tQ ≠ .ok L := by
  constructor
  · rfl
  · intro L h
    rw [show evaluateAgents cC6 tQ = .error "boom" from rfl] at h
    cases h

/-- C1 (code evidence): the selected handler X raises, the coordinator
retries the task once on the default handler D and returns D's result
body, but `_prepare_result` is called with the originally selected
handler, so the returned `agent_name` is "X", the failing handler's name,
not the default handler's "D"; and when the default handler's own
`process` raises (fixture `cC1b`), the failure propagates. -/
theorem C1_fallback_behavior :
    agX.process tQ = .error "boom" ∧
    cC1.defaultAgent = agD ∧
    executeAgent cC1 agX tQ = .ok [("content", Val.vstr "from-default")] ∧
    processTask cC1 tQ 5 =
      .ok (prepareResult [("content", Val.vstr "from-default")] agX 5) ∧
    rget (prepareResult [("content", Val.vstr "from-default")] agX 5)
      "agent_name" = some (.vstr "X") ∧
    agD.name = "D" ∧ ("X" : String) ≠ "D" ∧
    processTask cC1b tQ 5 = .error "dboom" := by
  refine ⟨rfl, rfl, rfl, rfl, rfl, rfl, by decide, rfl⟩

theorem executeAgent_congr (c : Coordinator) (a : Agent) (t t' : RMap)
    (hpa : a.process t = a.process t')
    (hpd : c.defaultAgent.process t = c.defaultAgent.process t') :
    executeAgent c a t = executeAgent c a t' := by
  simp only [executeAgent, hpa]
  cases h : a.process t' with
  | ok r => rfl
  | error e =>
    cases hid : (a.aid == c.defaultAgent.aid) with
    | true => simp [hid]
    | false => simp [hid, hpd]

theorem processAuto_congr (c : Coordinator) (t t' : RMap) (e : Rat)
    (heva : ∀ a ∈ c.agents, a.evaluate t = a.evaluate t')
    (hproc : ∀ a ∈ c.agents, a.process t = a.process t')
    (hdproc : c.defaultAgent.process t = c.defaultAgent.process t') :
    processAuto c t e = processAuto c t' e := by
  have hev : exceptMapM (fun a => a.evaluate t) c.agents =
      exceptMapM (fun a => a.evaluate t') c.agents :=
    exceptMapM_congr heva
  have hea : evaluateAgents c t = evaluateAgents c t' := by
    simp only [evaluateAgents, hev]
  unfold processAuto
  rw [hea]
  cases hsc : evaluateAgents c t' with
  | error e' => rfl
  | ok scores =>
    cases scores with
    | nil =>
      rw [executeAgent_congr c c.defaultAgent t t' hdproc hdproc]
    | cons hd tl =>
      rcases hd with ⟨bn, bs⟩
      have hsb : singleBest c (getAgentByName c bn) t e =
          singleBest c (getAgentByName c bn) t' e := by
        cases hb : getAgentByName c bn with
        | none => simp only [singleBest]
        | some best =>
          have hmem := getAgentByName_mem hb
          simp only [singleBest,
            executeAgent_congr c best t t' (hproc best hmem) hdproc]
      simp only
      cases hc : (c.enableParallel && decide (1 < ((bn, bs) :: tl).length)) with
      | false => simp only [hc, Bool.false_eq_true, if_false, hsb]
      | true =>
        simp only [hc, if_true]
        have hsub : ∀ a ∈ (((bn, bs) :: tl).filter
            (fun p => c.confidenceThreshold ≤ p.2)).filterMap
            (fun p => getAgentByName c p.1),
            executeAgent c a t = executeAgent c a t' := by
          intro a ha
          rcases List.mem_filterMap.mp ha with ⟨q, _, hq⟩
          exact executeAgent_congr c a t t'
            (hproc a (getAgentByName_mem hq)) hdproc
        by_cases hpl : 1 < ((((bn, bs) :: tl).filter
            (fun p => c.confidenceThreshold ≤ p.2)).filterMap
            (fun p => getAgentByName c p.1)).length
        · rw [if_pos hpl, if_pos hpl, exceptMapM_congr hsub]
        · rw [if_neg hpl, if_neg hpl, hsb]

/-- C10: a preferred-handler name matching no registered handler is
silently ignored: `process_task` proceeds to suitability evaluation and
ranking and, with the handlers (whose behavior by contract does not read
the preferred-handler field) agreeing on the task with the field removed,
returns exactly the result it returns for the task without the field. -/
theorem C10_unmatched_preferred (c : Coordinator) (t : RMap) (e : Rat)
    (s : String)
    (hp : rget t "preferred_agent" = some (.vstr s))
    (hn : getAgentByName c s = none)
    (heva : ∀ a ∈ c.agents,
      a.evaluate t = a.evaluate (rerase t "preferred_agent"))
    (hproc : ∀ a ∈ c.agents,
      a.process t = a.process (rerase t "preferred_agent"))
    (hdproc : c.defaultAgent.process t =
      c.defaultAgent.process (rerase t "preferred_agent")) :
    processTask c t e = processTask c (rerase t "preferred_agent") e := by
  have h1 : processTask c t e = processAuto c t e := by
    apply processTask_eq_auto
    unfold noPreferredMatch
    rw [hp]
    exact Or.inr hn
  have h2 : rget (rerase t "preferred_agent") "preferred_agent" = none :=
    rget_rerase_self t _
  have h3 : processTask c (rerase t "preferred_agent") e =
      processAuto c (rerase t "preferred_agent") e := by
    simp only [processTask, h2]
  rw [h1, h3]
  exact processAuto_congr c t _ e heva hproc hdproc

def tUn : RMap :=
  [("preferred_agent", Val.vstr "nobody"), ("query", Val.vstr "q")]

theorem C10_unmatched_preferred_witness :
    rget tUn "preferred_agent" = some (.vstr "nobody") ∧
    getAgentByName cC1 "nobody" = none ∧
    processTask cC1 tUn 5 = processTask cC1 (rerase tUn "preferred_agent") 5 := by
  refine ⟨rfl, rfl, ?_⟩
  apply C10_unmatched_preferred cC1 tUn 5 "nobody" rfl rfl
  · intro a ha
    rcases List.mem_cons.mp ha with h | h
    · subst h; rfl
    · rcases List.mem_cons.mp h with h2 | h2
      · subst h2; rfl
      · cases h2
  · intro a ha
    rcases List.mem_cons.mp ha with h | h
    · subst h; rfl
    · rcases List.mem_cons.mp h with h2 | h2
      · subst h2; rfl
      · cases h2
  · rfl

theorem evaluateAgents_names {c : Coordinator} {t : RMap}
    {L : List (String × Rat)} (h : evaluateAgents c t = .ok L) :
    ∀ p ∈ L, ∃ a ∈ c.agents, p.1 = a.name := by
  unfold evaluateAgents at h
  cases hev : exceptMapM (fun a => a.evaluate t) c.agents with
  | error e =>
    simp only [hev] at h
    cases h
  | ok results =>
    simp only [hev] at h
    cases h
    intro p hp
    have hp' := (sortDesc_perm _).mem_iff.mp hp
    rcases List.mem_filterMap.mp hp' with ⟨q, hq, hqe⟩
    by_cases h0 : 0 < q.2
    · rw [if_pos h0] at hqe
      cases hqe
      exact ⟨q.1, (List.of_mem_zip hq).1, rfl⟩
    · rw [if_neg h0] at hqe
      cases hqe

theorem filterMap_lookup_map_name (c : Coordinator)
    (F : List (String × Rat))
    (hres : ∀ p ∈ F, ∃ a ∈ c.agents,
      getAgentByName c p.1 = some a ∧ a.name = p.1) :
    (F.filterMap (fun p => getAgentByName c p.1)).map (fun a => a.name) =
      F.map Prod.fst := by
  induction F with
  | nil => rfl
  | cons p F' ih =>
    rcases hres p (List.mem_cons_self _ _) with ⟨a, _, hlook, hname⟩
    rw [List.filterMap_cons, hlook, List.map_cons, List.map_cons,
      ih (fun q hq => hres q (List.mem_cons_of_mem _ hq)), hname]

/-- C4: with no preferred-handler match and a non-empty ranked list, if
parallel mode is on, more than one candidate is ranked, and more than
one candidate clears the confidence threshold, then exactly the agents
named by the threshold-clearing candidates are executed and combined;
in every other case the single top-ranked candidate is executed. -/
theorem C4_parallel_decision (c : Coordinator) (t : RMap) (e : Rat)
    (bn : String) (bs : Rat) (rest : List (String × Rat))
    (hnp : noPreferredMatch c t)
    (hu : ∀ a ∈ c.agents, getAgentByName c a.name = some a)
    (hsc : evaluateAgents c t = .ok ((bn, bs) :: rest)) :
    (c.enableParallel = true → 1 < ((bn, bs) :: rest).length →
      1 < ((((bn, bs) :: rest).filter
          (fun p => c.confidenceThreshold ≤ p.2)).filterMap
          (fun p => getAgentByName c p.1)).length →
      (((((bn, bs) :: rest).filter
          (fun p => c.confidenceThreshold ≤ p.2)).filterMap
          (fun p => getAgentByName c p.1)).map (fun a => a.name) =
        (((bn, bs) :: rest).filter
          (fun p => c.confidenceThreshold ≤ p.2)).map Prod.fst) ∧
      processTask c t e =
        (match exceptMapM (fun a => executeAgent c a t)
            ((((bn, bs) :: rest).filter
              (fun p => c.confidenceThreshold ≤ p.2)).filterMap
              (fun p => getAgentByName c p.1)) with
          | .error m => .error m
          | .ok results => combineResults results
              ((((bn, bs) :: rest).filter
                (fun p => c.confidenceThreshold ≤ p.2)).filterMap
                (fun p => getAgentByName c p.1)) e)) ∧
    (¬(c.enableParallel = true ∧ 1 < ((bn, bs) :: rest).length ∧
        1 < ((((bn, bs) :: rest).filter
          (fun p => c.confidenceThreshold ≤ p.2)).filterMap
          (fun p => getAgentByName c p.1)).length) →
      ∃ best, getAgentByName c bn = some best ∧ best.name = bn ∧
        processTask c t e = singleBest c (some best) t e) := by
  have hres : ∀ p ∈ (bn, bs) :: rest, ∃ a ∈ c.agents,
      getAgentByName c p.1 = some a ∧ a.name = p.1 := by
    intro p hp
    rcases evaluateAgents_names hsc p hp with ⟨a, ha, hpa⟩
    exact ⟨a, ha, by rw [hpa]; exact hu a ha, hpa.symm⟩
  have hpt : processTask c t e = processAuto c t e :=
    processTask_eq_auto c t e hnp
  constructor
  · intro hpar hlen hplen
    constructor
    · exact filterMap_lookup_map_name c _
        (fun q hq => hres q (List.mem_of_mem_filter hq))
    · rw [hpt]
      simp only [processAuto, hsc]
      have hcond : (c.enableParallel &&
          decide (1 < ((bn, bs) :: rest).length)) = true := by
        rw [hpar, decide_eq_true hlen]
        rfl
      simp only [hcond, if_true, if_pos hplen]
  · intro hneg
    rcases hres (bn, bs) (List.mem_cons_self _ _) with
      ⟨best, _, hlook, hname⟩
    refine ⟨best, hlook, hname, ?_⟩
    rw [hpt]
    simp only [processAuto, hsc]
    cases hb : (c.enableParallel &&
        decide (1 < ((bn, bs) :: rest).length)) with
    | false =>
      simp only [hb, Bool.false_eq_true, if_false, hlook]
    | true =>
      rcases Bool.and_eq_true_iff.mp hb with ⟨hpar, hdec⟩
      have hlen := of_decide_eq_true hdec
      have hplen : ¬ 1 < ((((bn, bs) :: rest).filter
          (fun p => c.confidenceThreshold ≤ p.2)).filterMap
          (fun p => getAgentByName c p.1)).length := by
        intro hgt
        exact hneg ⟨hpar, hlen, hgt⟩
      simp only [hb, if_true, if_neg hplen, hlook]

def agA3 : Agent :=
  ⟨11, "A", "agent a3", fun _ => .ok rQ09,
    fun _ => .ok [("answer", .vstr "a"), ("confidence", .vnum rQ06)]⟩

def agB3 : Agent :=
  ⟨12, "B", "agent b3", fun _ => .ok rQ07,
    fun _ => .ok [("answer", .vstr "b"), ("confidence", .vnum rQ08)]⟩

def agC3 : Agent :=
  ⟨13, "C", "agent c3", fun _ => .ok rQ03,
    fun _ => .ok [("answer", .vstr "c"), ("confidence", .vnum rQ05)]⟩

def cPar : Coordinator := ⟨[agA3, agB3, agC3], agA3, true, rQ05⟩

theorem C4_parallel_decision_witness :
    (((([("A", rQ09), ("B", rQ07), ("C", rQ03)]).filter
        (fun p => cPar.confidenceThreshold ≤ p.2)).filterMap
        (fun p => getAgentByName cPar p.1)).map (fun a => a.name) =
      (([("A", rQ09), ("B", rQ07), ("C", rQ03)]).filter
        (fun p => cPar.confidenceThreshold ≤ p.2)).map Prod.fst) ∧
    processTask cPar tQ 7 =
      (match exceptMapM (fun a => executeAgent cPar a tQ)
          ((([("A", rQ09), ("B", rQ07), ("C", rQ03)]).filter
            (fun p => cPar.confidenceThreshold ≤ p.2)).filterMap
            (fun p => getAgentByName cPar p.1)) with
        | .error m => .error m
        | .ok results => combineResults results
            ((([("A", rQ09), ("B", rQ07), ("C", rQ03)]).filter
              (fun p => cPar.confidenceThreshold ≤ p.2)).filterMap
              (fun p => getAgentByName cPar p.1)) 7) :=
  (C4_parallel_decision cPar tQ 7 "A" rQ09 [("B", rQ07), ("C", rQ03)]
    trivial
    (by
      intro a ha
      rcases List.mem_cons.mp ha with h | h
      · subst h; rfl
      · rcases List.mem_cons.mp h with h2 | h2
        · subst h2; rfl
        · rcases List.mem_cons.mp h2 with h3 | h3
          · subst h3; rfl
          · cases h3)
    rfl).1 rfl (by decide) (by decide)

/-- A result's confidence field, when present, is a number in the valid
range [0, 1] (the documented Result contract). -/
def validConf (r : RMap) : Prop :=
  match rget r "confidence" with
  | none => True
  | some (.vnum q) => 0 ≤ q ∧ q ≤ 1
  | some (.vstr _) => False

theorem validConf_readable {r : RMap} (h : validConf r) : confReadable r := by
  unfold validConf at h
  unfold confReadable
  cases hr : rget r "confidence" with
  | none => trivial
  | some v =>
    cases v with
    | vnum q => trivial
    | vstr s => rw [hr] at h; cases h

theorem validConf_nonneg {r : RMap} (h : validConf r) : 0 ≤ confOf r := by
  unfold validConf at h
  unfold confOf
  cases hr : rget r "confidence" with
  | none => exact le_refl 0
  | some v =>
    rw [hr] at h
    cases v with
    | vnum q => exact h.1
    | vstr s => cases h

theorem confOf_empty {r : RMap} (h : r.isEmpty) : confOf r = 0 := by
  rw [List.isEmpty_iff.mp h]
  rfl

theorem get_zip_eq {α β : Type} :
    ∀ (l₁ : List α) (l₂ : List β) (i : Nat) (h : i < (l₁.zip l₂).length)
      (h1 : i < l₁.length) (h2 : i < l₂.length),
      (l₁.zip l₂).get ⟨i, h⟩ = (l₁.get ⟨i, h1⟩, l₂.get ⟨i, h2⟩)
  | _ :: _, _ :: _, 0, _, _, _ => rfl
  | _ :: xs, _ :: ys, i + 1, h, h1, h2 =>
    get_zip_eq xs ys i (Nat.lt_of_succ_lt_succ h)
      (Nat.lt_of_succ_lt_succ h1) (Nat.lt_of_succ_lt_succ h2)

theorem combineResults_eq_of_loop_some (r0 : RMap) (rs : List RMap)
    (a0 : Agent) (as : List Agent) (e : Rat) (r : RMap) (a : Agent)
    (hcl : combineLoop ((r0 :: rs).zip (a0 :: as)) (-1) none =
      .ok (some (r, a))) :
    combineResults (r0 :: rs) (a0 :: as) e =
      (if r.isEmpty then .ok (prepareResult r0 a0 e)
       else .ok (prepareResult r a e)) := by
  unfold combineResults
  split
  · rename_i hl'
    rw [hcl] at hl'
    cases hl'
  · rename_i r' a' hl'
    rw [hcl] at hl'
    simp only [Except.ok.injEq, Option.some.injEq, Prod.mk.injEq] at hl'
    obtain ⟨h1, h2⟩ := hl'
    subst h1
    subst h2
    by_cases hemp : r.isEmpty
    · rw [if_pos hemp]
    · rw [if_neg hemp]
  · rename_i hl'
    rw [hcl] at hl'
    cases hl'

/-- C3: for a non-empty fan-out whose results obey the Result contract
(confidence, when present, a number in [0, 1]), the combination step
returns the result at the first index of strictly-highest confidence
(missing confidence read as 0; when no result has a usable confidence
everything reads 0 and index 0 wins), enriched with the metadata of the
handler that produced it; the other results are discarded. -/
theorem C3_combination (results : List RMap) (agents : List Agent) (e : Rat)
    (hne : results ≠ [])
    (hlen : results.length = agents.length)
    (hvc : ∀ r ∈ results, validConf r) :
    ∃ i, ∃ hir : i < results.length, ∃ hia : i < agents.length,
      combineResults results agents e =
        .ok (prepareResult (results.get ⟨i, hir⟩) (agents.get ⟨i, hia⟩) e) ∧
      (∀ j, ∀ hjr : j < results.length,
        confOf (results.get ⟨j, hjr⟩) ≤ confOf (results.get ⟨i, hir⟩)) ∧
      (∀ j, j < i → ∀ hjr : j < results.length,
        confOf (results.get ⟨j, hjr⟩) < confOf (results.get ⟨i, hir⟩)) ∧
      rget (prepareResult (results.get ⟨i, hir⟩) (agents.get ⟨i, hia⟩) e)
        "agent_name" = some (.vstr (agents.get ⟨i, hia⟩).name) := by
  have hpslen : (results.zip agents).length = results.length := by
    rw [List.length_zip, hlen, min_self]
  have hreadable : ∀ p ∈ results.zip agents, confReadable p.1 :=
    fun p hp => validConf_readable (hvc p.1 (List.of_mem_zip hp).1)
  have hnonneg : ∀ p ∈ results.zip agents, 0 ≤ confOf p.1 :=
    fun p hp => validConf_nonneg (hvc p.1 (List.of_mem_zip hp).1)
  have hcl : combineLoop (results.zip agents) (-1) none =
      .ok (loopPure (results.zip agents) (-1) none) :=
    combineLoop_eq_loopPure _ _ _ hreadable
  have hzne : results.zip agents ≠ [] := by
    intro hz
    have := hpslen
    rw [hz] at this
    exact hne (List.length_eq_zero.mp this.symm)
  have hex : ∃ p ∈ results.zip agents, (-1 : Rat) < confOf p.1 := by
    rcases List.exists_mem_of_ne_nil _ hzne with ⟨p, hp⟩
    have h0 : 0 ≤ confOf p.1 := hnonneg p hp
    exact ⟨p, hp, by linarith⟩
  rcases loopPure_found (results.zip agents) (-1) none hex with
    ⟨i, hi, heq, _, hmax, hstrict⟩
  have hir : i < results.length := hpslen ▸ hi
  have hia : i < agents.length := hlen ▸ hir
  have hget : (results.zip agents).get ⟨i, hi⟩ =
      (results.get ⟨i, hir⟩, agents.get ⟨i, hia⟩) :=
    get_zip_eq results agents i hi hir hia
  have hcl' : combineLoop (results.zip agents) (-1) none =
      .ok (some (results.get ⟨i, hir⟩, agents.get ⟨i, hia⟩)) := by
    rw [hcl, heq, hget]
  have hmax' : ∀ j, ∀ hjr : j < results.length,
      confOf (results.get ⟨j, hjr⟩) ≤ confOf (results.get ⟨i, hir⟩) := by
    intro j hjr
    have hj : j < (results.zip agents).length := hpslen ▸ hjr
    have hja : j < agents.length := hlen ▸ hjr
    have := hmax j hj
    rw [get_zip_eq results agents j hj hjr hja, hget] at this
    exact this
  have hstrict' : ∀ j, j < i → ∀ hjr : j < results.length,
      confOf (results.get ⟨j, hjr⟩) < confOf (results.get ⟨i, hir⟩) := by
    intro j hji hjr
    have hj : j < (results.zip agents).length := hpslen ▸ hjr
    have hja : j < agents.length := hlen ▸ hjr
    have := hstrict j hji
    rw [get_zip_eq results agents j (Nat.lt_trans hji hi) hjr hja,
      hget] at this
    exact this
  by_cases hemp : (results.get ⟨i, hir⟩).isEmpty
  · have hi0 : i = 0 := by
      by_contra hne0
      have h0r : 0 < results.length :=
        Nat.lt_of_lt_of_le (Nat.pos_of_ne_zero hne0) (Nat.le_of_lt hir)
      have := hstrict' 0 (Nat.pos_of_ne_zero hne0) h0r
      rw [confOf_empty hemp] at this
      have h00 : 0 ≤ confOf (results.get ⟨0, h0r⟩) := by
        apply validConf_nonneg
        exact hvc _ (List.get_mem results 0 h0r)
      linarith
    subst hi0
    cases results with
    | nil => exact absurd rfl hne
    | cons r0 rs =>
      cases agents with
      | nil => cases hia
      | cons a0 as =>
        refine ⟨0, hir, hia, ?_, hmax', hstrict', prepareResult_get_name _ _ _⟩
        rw [combineResults_eq_of_loop_some r0 rs a0 as e _ _ hcl',
          if_pos hemp]
        rfl
  · cases results with
    | nil => exact absurd rfl hne
    | cons r0 rs =>
      cases agents with
      | nil => cases hia
      | cons a0 as =>
        refine ⟨i, hir, hia, ?_, hmax', hstrict', prepareResult_get_name _ _ _⟩
        rw [combineResults_eq_of_loop_some r0 rs a0 as e _ _ hcl',
          if_neg hemp]

def resA : RMap := [("answer", Val.vstr "a"), ("confidence", Val.vnum rQ06)]
def resB : RMap := [("answer", Val.vstr "b"), ("confidence", Val.vnum rQ08)]

theorem C3_combination_witness :
    ∃ i, ∃ hir : i < [resA, resB].length, ∃ hia : i < [agA3, agB3].length,
      combineResults [resA, resB] [agA3, agB3] 4 =
        .ok (prepareResult ([resA, resB].get ⟨i, hir⟩)
          ([agA3, agB3].get ⟨i, hia⟩) 4) ∧
      (∀ j, ∀ hjr : j < [resA, resB].length,
        confOf ([resA, resB].get ⟨j, hjr⟩) ≤
          confOf ([resA, resB].get ⟨i, hir⟩)) ∧
      (∀ j, j < i → ∀ hjr : j < [resA, resB].length,
        confOf ([resA, resB].get ⟨j, hjr⟩) <
          confOf ([resA, resB].get ⟨i, hir⟩)) ∧
      rget (prepareResult ([resA, resB].get ⟨i, hir⟩)
          ([agA3, agB3].get ⟨i, hia⟩) 4) "agent_name" =
        some (.vstr ([agA3, agB3].get ⟨i, hia⟩).name) :=
  C3_combination [resA, resB] [agA3, agB3] 4 (by decide) rfl
    (by
      intro r hr
      rcases List.mem_cons.mp hr with h | h
      · subst h
        exact (by decide : (0 : Rat) ≤ rQ06 ∧ rQ06 ≤ 1)
      · rcases List.mem_cons.mp h with h2 | h2
        · subst h2
          exact (by decide : (0 : Rat) ≤ rQ08 ∧ rQ08 ≤ 1)
        · cases h2)

theorem executeAgent_ok_process {c : Coordinator} {a : Agent} {t : RMap}
    {r : RMap} (h : executeAgent c a t = .ok r) :
    a.process t = .ok r ∨ c.defaultAgent.process t = .ok r := by
  unfold executeAgent at h
  cases hp : a.process t with
  | ok r' =>
    simp only [hp] at h
    cases h
    exact Or.inl rfl
  | error e' =>
    simp only [hp] at h
    split at h
    · cases h
    · exact Or.inr h

theorem exceptMapM_mem_ok {α β : Type} {f : α → Except Err β} {l : List α}
    {ys : List β} (h : exceptMapM f l = .ok ys) :
    ∀ y ∈ ys, ∃ x ∈ l, f x = .ok y := by
  have h2 := exceptMapM_ok_forall₂.mp h
  clear h
  induction h2 with
  | nil =>
    intro y hy
    cases hy
  | cons hxy _ ih =>
    intro y hy
    rcases List.mem_cons.mp hy with hy0 | hytl
    · subst hy0
      exact ⟨_, List.mem_cons_self _ _, hxy⟩
    · rcases ih y hytl with ⟨x, hx, hfx⟩
      exact ⟨x, List.mem_cons_of_mem _ hx, hfx⟩

theorem singleBest_ok_shape {c : Coordinator} {bo : Option Agent}
    {t : RMap} {e : Rat} {res : RMap}
    (h : singleBest c bo t e = .ok res) :
    ∃ r a, bo = some a ∧ executeAgent c a t = .ok r ∧
      res = prepareResult r a e := by
  cases bo with
  | none =>
    unfold singleBest at h
    cases h
  | some best =>
    rw [show singleBest c (some best) t e =
        (match executeAgent c best t with
         | .error e' => .error e'
         | .ok r => .ok (prepareResult r best e)) from rfl] at h
    split at h
    · cases h
    · cases h
      rename_i r hx
      exact ⟨r, best, rfl, hx, rfl⟩

theorem processAuto_ok_shape {c : Coordinator} {t : RMap} {e : Rat}
    {res : RMap} (h : processAuto c t e = .ok res) :
    ∃ r a, (a ∈ c.agents ∨ a = c.defaultAgent) ∧
      (∃ b, (b ∈ c.agents ∨ b = c.defaultAgent) ∧ b.process t = .ok r) ∧
      res = prepareResult r a e := by
  unfold processAuto at h
  split at h
  · cases h
  · split at h
    · cases h
    · cases h
      rename_i r hx
      refine ⟨r, c.defaultAgent, Or.inr rfl, ?_, rfl⟩
      rcases executeAgent_ok_process hx with hb | hb <;>
        exact ⟨c.defaultAgent, Or.inr rfl, hb⟩
  · rename_i scores bestName bs rest
    split at h
    · split at h
      · split at h
        · cases h
        · rename_i results hmap
          rcases combineResults_ok_shape h with ⟨p, hp, hres⟩
          have hpr := (List.of_mem_zip hp).1
          have hpa := (List.of_mem_zip hp).2
          rcases List.mem_filterMap.mp hpa with ⟨q, _, hq⟩
          rcases exceptMapM_mem_ok hmap p.1 hpr with ⟨a', ha', hxa⟩
          have ha'mem : a' ∈ c.agents := by
            rcases List.mem_filterMap.mp ha' with ⟨q', _, hq'⟩
            exact getAgentByName_mem hq'
          refine ⟨p.1, p.2, Or.inl (getAgentByName_mem hq), ?_, hres⟩
          rcases executeAgent_ok_process hxa with hb | hb
          · exact ⟨a', Or.inl ha'mem, hb⟩
          · exact ⟨c.defaultAgent, Or.inr rfl, hb⟩
      · rcases singleBest_ok_shape h with ⟨r, a, hbo, hxa, hres⟩
        refine ⟨r, a, Or.inl (getAgentByName_mem hbo), ?_, hres⟩
        rcases executeAgent_ok_process hxa with hb | hb
        · exact ⟨a, Or.inl (getAgentByName_mem hbo), hb⟩
        · exact ⟨c.defaultAgent, Or.inr rfl, hb⟩
    · rcases singleBest_ok_shape h with ⟨r, a, hbo, hxa, hres⟩
      refine ⟨r, a, Or.inl (getAgentByName_mem hbo), ?_, hres⟩
      rcases executeAgent_ok_process hxa with hb | hb
      · exact ⟨a, Or.inl (getAgentByName_mem hbo), hb⟩
      · exact ⟨c.defaultAgent, Or.inr rfl, hb⟩

/-- C8: on every path, the returned mapping is a handler result that some
agent of the coordinator actually produced for this task via `process`,
enriched by exactly the three coordinator-owned keys — `agent_name` and
`agent_description` from an agent of the coordinator and
`execution_time` from the single whole-call elapsed value measured from
entry — with those keys overridden and every other key of that handler
result passed through unchanged. -/
theorem C8_enrichment (c : Coordinator) (t : RMap) (e : Rat) (res : RMap)
    (h : processTask c t e = .ok res) :
    ∃ r a, (a ∈ c.agents ∨ a = c.defaultAgent) ∧
      (∃ b, (b ∈ c.agents ∨ b = c.defaultAgent) ∧ b.process t = .ok r) ∧
      res = prepareResult r a e ∧
      rget res "agent_name" = some (.vstr a.name) ∧
      rget res "agent_description" = some (.vstr a.description) ∧
      rget res "execution_time" = some (.vnum e) ∧
      (∀ k, k ≠ "agent_name" → k ≠ "agent_description" →
        k ≠ "execution_time" → rget res k = rget r k) := by
  have hshape : ∃ r a, (a ∈ c.agents ∨ a = c.defaultAgent) ∧
      (∃ b, (b ∈ c.agents ∨ b = c.defaultAgent) ∧ b.process t = .ok r) ∧
      res = prepareResult r a e := by
    unfold processTask at h
    split at h
    · rename_i s
      split at h
      · exact processAuto_ok_shape h
      · split at h
        · rename_i a hlook
          split at h
          · cases h
          · rename_i r hx
            cases h
            refine ⟨r, a, Or.inl (getAgentByName_mem hlook), ?_, rfl⟩
            rcases executeAgent_ok_process hx with hb | hb
            · exact ⟨a, Or.inl (getAgentByName_mem hlook), hb⟩
            · exact ⟨c.defaultAgent, Or.inr rfl, hb⟩
        · exact processAuto_ok_shape h
    · rename_i q
      split at h
      · exact processAuto_ok_shape h
      · cases h
    · exact processAuto_ok_shape h
  rcases hshape with ⟨r, a, hmem, horigin, hres⟩
  subst hres
  exact ⟨r, a, hmem, horigin, rfl, prepareResult_get_name r a e,
    prepareResult_get_desc r a e, prepareResult_get_time r a e,
    fun k h1 h2 h3 => prepareResult_get_other r a e k h1 h2 h3⟩

theorem C8_enrichment_witness :
    ∃ r a, (a ∈ cPref.agents ∨ a = cPref.defaultAgent) ∧
      (∃ b, (b ∈ cPref.agents ∨ b = cPref.defaultAgent) ∧
        b.process tPref = .ok r) ∧
      prepareResult [("answer", Val.vstr "b")] agB 3 = prepareResult r a 3 ∧
      rget (prepareResult [("answer", Val.vstr "b")] agB 3) "agent_name" =
        some (.vstr a.name) ∧
      rget (prepareResult [("answer", Val.vstr "b")] agB 3)
        "agent_description" = some (.vstr a.description) ∧
      rget (prepareResult [("answer", Val.vstr "b")] agB 3)
        "execution_time" = some (.vnum 3) ∧
      (∀ k, k ≠ "agent_name" → k ≠ "agent_description" →
        k ≠ "execution_time" →
        rget (prepareResult [("answer", Val.vstr "b")] agB 3) k = rget r k) :=
  C8_enrichment cPref tPref 3 (prepareResult [("answer", Val.vstr "b")] agB 3)
    rfl
